import Mathlib

set_option maxRecDepth 20000

/-!
Verification of the caption-normalization core of `YouTubeVideo2Audio2Text.py`.

The development shallowly embeds the Python routine `_clean_vtt` (source lines
125-135) and the title sanitization of `_get_video_title` (line 51) as pure
functions on `List Char`, mirroring the Python string primitives used:
`str.splitlines`, `str.strip`, `str.startswith`, the substring test `in`,
`re.sub(r'<[^>]+>', '', line)`, `re.sub(r'[\\/*?:"<>|]', "", title)`,
list append with last-element comparison, and `"\n".join`.
-/

/-- Characters treated as whitespace by Python's `str.strip()` /
`str.isspace()` (ASCII whitespace, C1 separators, and Unicode space
separators). -/
def pyIsSpace (c : Char) : Bool :=
  decide (c ∈ [' ', '\t', '\n', '\r', '\x0b', '\x0c',
    '\x1c', '\x1d', '\x1e', '\x1f', '\x85', '\xa0',
    ' ', ' ', ' ', ' ', ' ', ' ', ' ',
    ' ', ' ', ' ', ' ', ' ',
    ' ', ' ', ' ', ' ', '　'])

/-- Line-boundary characters of Python's `str.splitlines()` (besides the
two-character boundary `"\r\n"`, which is handled in `pySplitA`). -/
def pyLineBreak (c : Char) : Bool :=
  decide (c ∈ ['\n', '\r', '\x0b', '\x0c', '\x1c', '\x1d', '\x1e',
    '\x85', ' ', ' '])

/-- Worker for `str.splitlines()`: `acc` holds the current line reversed;
`lastCR` records that the previous character was `'\r'` so that an
immediately following `'\n'` is part of the same `"\r\n"` boundary. -/
def pySplitA : List Char → List Char → Bool → List (List Char)
  | [], acc, _ => if acc.isEmpty then [] else [acc.reverse]
  | c :: rest, acc, lastCR =>
    if c = '\n' then
      if lastCR then pySplitA rest acc false
      else acc.reverse :: pySplitA rest [] false
    else if c = '\r' then acc.reverse :: pySplitA rest [] true
    else if pyLineBreak c then acc.reverse :: pySplitA rest [] false
    else pySplitA rest (c :: acc) false

/-- Python `vtt_content.splitlines()` (source line 127). -/
def pySplitlines (l : List Char) : List (List Char) :=
  pySplitA l [] false

/-- Python `line.strip()`: drop leading and trailing whitespace. -/
def pyStrip (l : List Char) : List Char :=
  ((l.dropWhile pyIsSpace).reverse.dropWhile pyIsSpace).reverse

/-- Split a character list at the first `'>'`: returns the characters before
it and the characters after it, or `none` when no `'>'` occurs.  This is the
search the regex engine performs for the pattern `<[^>]+>` once a `'<'` has
been read. -/
def splitAtGt : List Char → Option (List Char × List Char)
  | [] => none
  | c :: rest =>
    if c = '>' then some ([], rest)
    else
      match splitAtGt rest with
      | none => none
      | some (pre, post) => some (c :: pre, post)

/-- Fuelled worker for `re.sub(r'<[^>]+>', '', line)` (source line 132):
scanning left to right, a `'<'` followed by at least one non-`'>'` character
and then `'>'` is deleted (the regex match); otherwise the character is kept.
The fuel is set to the length of the list by `stripTags`, which makes the
recursion structural. -/
def stripTagsF : Nat → List Char → List Char
  | 0, l => l
  | _ + 1, [] => []
  | n + 1, c :: rest =>
    if c = '<' then
      match splitAtGt rest with
      | some (pre, post) =>
        if pre = [] then c :: stripTagsF n rest else stripTagsF n post
      | none => c :: stripTagsF n rest
    else c :: stripTagsF n rest

/-- Python `re.sub(r'<[^>]+>', '', line)` (source line 132). -/
def stripTags (l : List Char) : List Char :=
  stripTagsF l.length l

/-- Python substring test `pat in l` for strings. -/
def pyContains (pat : List Char) : List Char → Bool
  | [] => pat.isEmpty
  | c :: rest => pat.isPrefixOf (c :: rest) || pyContains pat rest

/-- The literal header token `'WEBVTT'` of source line 130. -/
def webvttToken : List Char := ['W', 'E', 'B', 'V', 'T', 'T']

/-- The literal cue-timing arrow token `'-->'` of source line 130. -/
def arrowToken : List Char := ['-', '-', '>']

/-- The skip test of source line 130:
`line.strip().startswith('WEBVTT') or '-->' in line or not line.strip()`. -/
def skipLine (line : List Char) : Bool :=
  webvttToken.isPrefixOf (pyStrip line) || pyContains arrowToken line ||
    (pyStrip line).isEmpty

/-- The loop of `_clean_vtt` (source lines 128-134): `acc` is
`transcript_lines`; a non-skipped line is tag-stripped and trimmed, and
appended when non-empty and different from the last appended line. -/
def cleanLoop : List (List Char) → List (List Char) → List (List Char)
  | acc, [] => acc
  | acc, line :: rest =>
    if skipLine line then cleanLoop acc rest
    else
      if pyStrip (stripTags line) ≠ [] ∧
          acc.getLast? ≠ some (pyStrip (stripTags line)) then
        cleanLoop (acc ++ [pyStrip (stripTags line)]) rest
      else cleanLoop acc rest

/-- Python `"\n".join(transcript_lines)` (source line 135). -/
def joinNL : List (List Char) → List Char
  | [] => []
  | [l] => l
  | l :: l' :: ls => l ++ '\n' :: joinNL (l' :: ls)

/-- The retained lines of `_clean_vtt` before joining (the final value of
`transcript_lines`). -/
def cleanLines (content : List Char) : List (List Char) :=
  cleanLoop [] (pySplitlines content)

/-- The routine `_clean_vtt` (source lines 125-135) as a pure function on
character lists. -/
def clean_vtt (content : List Char) : List Char :=
  joinNL (cleanLines content)

/-- The cleaned text a single input line contributes as a dedup candidate:
`none` when the line is skipped or its tag-stripped trimmed text is empty,
otherwise the cleaned text.  This packages steps 1-2 and the emptiness part
of step 3 of the algorithm. -/
def retainedClean (line : List Char) : Option (List Char) :=
  if skipLine line then none
  else if pyStrip (stripTags line) = [] then none
  else some (pyStrip (stripTags line))

/-- The sequence of cleaned candidate lines of a caption track, in input
order, before consecutive-duplicate collapsing. -/
def candidateLines (content : List Char) : List (List Char) :=
  (pySplitlines content).filterMap retainedClean

/-- Collapse consecutive duplicates, where `last` is the most recently kept
element: a specification-level description of the dedup of source lines
133-134 (an element equal to the last kept element is dropped, everything
else is kept). -/
def collapseFrom : Option (List Char) → List (List Char) → List (List Char)
  | _, [] => []
  | last, c :: rest =>
    if some c = last then collapseFrom last rest
    else c :: collapseFrom (some c) rest

/-- Collapse immediately consecutive duplicates of a line sequence, written
after the spec's words for the dedup behaviour of the normalizer. -/
def collapseConsec (l : List (List Char)) : List (List Char) :=
  collapseFrom none l

/-- A regex match of `<[^>]+>` is present: some `'<'` is followed by at
least one non-`'>'` character and then `'>'`. -/
def hasTagMatch : List Char → Bool
  | [] => false
  | c :: rest =>
    (if c = '<' then
      match splitAtGt rest with
      | some (pre, _) => !pre.isEmpty
      | none => false
    else false) || hasTagMatch rest

/-- Some substring is delimited by `'<'` and the next `'>'` (the spec's
notion of a markup tag, which also covers the empty tag `"<>"`). -/
def hasAngle : List Char → Bool
  | [] => false
  | c :: rest => (c = '<' && rest.contains '>') || hasAngle rest

/-- The characters removed from a video title by
`re.sub(r'[\\/*?:"<>|]', "", title)` (source line 51). -/
def illegalChar (c : Char) : Bool :=
  c = '\\' || c = '/' || c = '*' || c = '?' || c = ':' || c = '"' ||
    c = '<' || c = '>' || c = '|'

/-- The sanitized video title of `_get_video_title` (source line 51). -/
def sanitizeTitle (t : List Char) : List Char :=
  t.filter (fun c => !illegalChar c)

/-- Abbreviation for string literals used in concrete inputs. -/
def toL (s : String) : List Char := s.toList

/-- Transcript file basename from a raw title (source lines 51 and 113). -/
def transcriptFileName (t : List Char) : List Char :=
  sanitizeTitle t ++ toL "_transcript.txt"

/-- Summary file basename from a raw title (source lines 51 and 171). -/
def summaryFileName (t : List Char) : List Char :=
  sanitizeTitle t ++ toL "_summary.txt"

/-- MCQ file basename from a raw title (source lines 51 and 191). -/
def mcqsFileName (t : List Char) : List Char :=
  sanitizeTitle t ++ toL "_mcqs.txt"


theorem splitAtGt_some {l pre post : List Char} (h : splitAtGt l = some (pre, post)) :
    l = pre ++ '>' :: post ∧ '>' ∉ pre := by
  induction l generalizing pre post with
  | nil => simp [splitAtGt] at h
  | cons c rest ih =>
    rw [splitAtGt] at h
    by_cases hc : c = '>'
    · rw [if_pos hc] at h
      obtain ⟨rfl, rfl⟩ := Prod.mk.injEq .. ▸ Option.some.inj h
      simp [hc]
    · rw [if_neg hc] at h
      cases hsp : splitAtGt rest with
      | none => rw [hsp] at h; exact absurd h (by simp)
      | some pp =>
        obtain ⟨pre', post'⟩ := pp
        rw [hsp] at h
        obtain ⟨rfl, rfl⟩ := Prod.mk.injEq .. ▸ Option.some.inj h
        obtain ⟨h1, h2⟩ := ih hsp
        constructor
        · rw [List.cons_append, ← h1]
        · intro hm
          rcases List.mem_cons.mp hm with h3 | h3
          · exact hc h3.symm
          · exact h2 h3

theorem splitAtGt_none {l : List Char} : splitAtGt l = none ↔ '>' ∉ l := by
  induction l with
  | nil => simp [splitAtGt]
  | cons c rest ih =>
    rw [splitAtGt]
    by_cases hc : c = '>'
    · subst hc; simp
    · rw [if_neg hc]
      cases hsp : splitAtGt rest with
      | none =>
        simp only [List.mem_cons]
        constructor
        · intro _ h
          rcases h with h | h
          · exact hc h.symm
          · exact (ih.mp hsp) h
        · intro _; trivial
      | some pp =>
        obtain ⟨pre, post⟩ := pp
        have h1 := splitAtGt_some hsp
        have h2 : '>' ∈ rest := by rw [h1.1]; simp
        simp [h2]

theorem splitAtGt_of {pre post : List Char} (h : '>' ∉ pre) :
    splitAtGt (pre ++ '>' :: post) = some (pre, post) := by
  induction pre with
  | nil => simp [splitAtGt]
  | cons c pre' ih =>
    have hc : c ≠ '>' := fun e => h (e ▸ List.mem_cons_self c pre')
    have h' : '>' ∉ pre' := fun m => h (List.mem_cons_of_mem _ m)
    rw [List.cons_append, splitAtGt, if_neg hc, ih h']

theorem splitAtGt_length {l pre post : List Char} (h : splitAtGt l = some (pre, post)) :
    post.length < l.length := by
  obtain ⟨h1, _⟩ := splitAtGt_some h
  subst h1
  simp only [List.length_append, List.length_cons]
  omega

theorem stripTagsF_nil : ∀ n, stripTagsF n [] = []
  | 0 => rfl
  | _ + 1 => rfl

theorem stripTagsF_congr :
    ∀ n {m} {l : List Char}, l.length ≤ n → l.length ≤ m →
      stripTagsF n l = stripTagsF m l := by
  intro n
  induction n with
  | zero =>
    intro m l h _
    have : l = [] := List.eq_nil_of_length_eq_zero (Nat.le_zero.mp h)
    subst this
    rw [stripTagsF_nil, stripTagsF_nil]
  | succ n ih =>
    intro m l hn hm
    cases l with
    | nil => rw [stripTagsF_nil, stripTagsF_nil]
    | cons c rest =>
      cases m with
      | zero => simp at hm
      | succ m' =>
        have hrn : rest.length ≤ n := by
          simp only [List.length_cons] at hn; omega
        have hrm : rest.length ≤ m' := by
          simp only [List.length_cons] at hm; omega
        simp only [stripTagsF]
        by_cases hc : c = '<'
        · rw [if_pos hc, if_pos hc]
          split
          · next pre post hsp =>
            have hpl : post.length < rest.length := splitAtGt_length hsp
            by_cases hpre : pre = []
            · rw [if_pos hpre, if_pos hpre, ih hrn hrm]
            · rw [if_neg hpre, if_neg hpre,
                ih (Nat.le_of_lt (Nat.lt_of_lt_of_le hpl hrn))
                  (Nat.le_of_lt (Nat.lt_of_lt_of_le hpl hrm))]
          · next hsp => rw [ih hrn hrm]
        · rw [if_neg hc, if_neg hc, ih hrn hrm]

theorem stripTagsF_eq {n : Nat} {l : List Char} (h : l.length ≤ n) :
    stripTagsF n l = stripTags l :=
  stripTagsF_congr n h (Nat.le_refl _)

theorem stripTags_nil : stripTags [] = [] := rfl

theorem stripTags_cons_not {c : Char} (rest : List Char) (hc : c ≠ '<') :
    stripTags (c :: rest) = c :: stripTags rest := by
  show stripTagsF (rest.length + 1) (c :: rest) = _
  simp [stripTagsF, hc, stripTags]

theorem stripTags_cons_match {rest pre post : List Char}
    (hsp : splitAtGt rest = some (pre, post)) (hpre : pre ≠ []) :
    stripTags ('<' :: rest) = stripTags post := by
  show stripTagsF (rest.length + 1) ('<' :: rest) = _
  simp only [stripTagsF, if_pos rfl, hsp, if_neg hpre]
  exact stripTagsF_eq (Nat.le_of_lt (splitAtGt_length hsp))

theorem stripTags_cons_lt_none {rest : List Char} (hsp : splitAtGt rest = none) :
    stripTags ('<' :: rest) = '<' :: stripTags rest := by
  show stripTagsF (rest.length + 1) ('<' :: rest) = _
  simp [stripTagsF, hsp, stripTags]

theorem stripTags_cons_lt_empty {rest post : List Char}
    (hsp : splitAtGt rest = some ([], post)) :
    stripTags ('<' :: rest) = '<' :: stripTags rest := by
  show stripTagsF (rest.length + 1) ('<' :: rest) = _
  simp [stripTagsF, hsp, stripTags]

theorem stripTagsF_sublist :
    ∀ n (l : List Char), l.length ≤ n → List.Sublist (stripTagsF n l) l := by
  intro n
  induction n with
  | zero =>
    intro l h
    have : l = [] := List.eq_nil_of_length_eq_zero (Nat.le_zero.mp h)
    subst this
    exact List.Sublist.refl _
  | succ n ih =>
    intro l hn
    cases l with
    | nil => rw [stripTagsF_nil]
    | cons c rest =>
      have hrn : rest.length ≤ n := by
        simp only [List.length_cons] at hn; omega
      simp only [stripTagsF]
      by_cases hc : c = '<'
      · rw [if_pos hc]
        split
        · next pre post hsp =>
          have hpost : List.Sublist post rest := by
            obtain ⟨h1, _⟩ := splitAtGt_some hsp
            rw [h1]
            exact (List.sublist_cons_self '>' post).trans
              (List.sublist_append_right pre ('>' :: post))
          by_cases hpre : pre = []
          · rw [if_pos hpre]
            exact (ih rest hrn).cons₂ c
          · rw [if_neg hpre]
            exact ((ih post (Nat.le_of_lt (Nat.lt_of_lt_of_le
              (splitAtGt_length hsp) hrn))).trans hpost).cons c
        · exact (ih rest hrn).cons₂ c
      · rw [if_neg hc]
        exact (ih rest hrn).cons₂ c

theorem stripTags_sublist (l : List Char) : List.Sublist (stripTags l) l :=
  stripTagsF_sublist l.length l (Nat.le_refl _)

theorem hasTagMatch_cons (c : Char) (rest : List Char) :
    hasTagMatch (c :: rest) =
      ((if c = '<' then
        match splitAtGt rest with
        | some (pre, _) => !pre.isEmpty
        | none => false
      else false) || hasTagMatch rest) := rfl

theorem hasTagMatch_stripTags_aux :
    ∀ n (l : List Char), l.length ≤ n → hasTagMatch (stripTags l) = false := by
  intro n
  induction n with
  | zero =>
    intro l h
    have : l = [] := List.eq_nil_of_length_eq_zero (Nat.le_zero.mp h)
    subst this
    rfl
  | succ n ih =>
    intro l hn
    cases l with
    | nil => rfl
    | cons c rest =>
      have hrn : rest.length ≤ n := by
        simp only [List.length_cons] at hn; omega
      by_cases hc : c = '<'
      · subst hc
        cases hsp : splitAtGt rest with
        | none =>
          have hmem : '>' ∉ rest := splitAtGt_none.mp hsp
          have hmem2 : '>' ∉ stripTags rest :=
            fun m => hmem ((stripTags_sublist rest).mem m)
          rw [stripTags_cons_lt_none hsp, hasTagMatch_cons, if_pos rfl,
            splitAtGt_none.mpr hmem2]
          simp [ih rest hrn]
        | some pp =>
          obtain ⟨pre, post⟩ := pp
          by_cases hpre : pre = []
          · subst hpre
            obtain ⟨h1, _⟩ := splitAtGt_some hsp
            simp only [List.nil_append] at h1
            subst h1
            have hgt : ('>' : Char) ≠ '<' := by decide
            have hpn : post.length ≤ n := by
              simp only [List.length_cons] at hrn; omega
            rw [stripTags_cons_lt_empty hsp, stripTags_cons_not post hgt,
              hasTagMatch_cons, if_pos rfl]
            have h2 : splitAtGt ('>' :: stripTags post) =
                some ([], stripTags post) := by
              simp [splitAtGt]
            rw [h2, hasTagMatch_cons, if_neg hgt]
            simp [ih post hpn]
          · rw [stripTags_cons_match hsp hpre]
            exact ih post (Nat.le_of_lt (Nat.lt_of_lt_of_le
              (splitAtGt_length hsp) hrn))
      · rw [stripTags_cons_not rest hc, hasTagMatch_cons, if_neg hc]
        simp [ih rest hrn]

theorem hasTagMatch_stripTags (l : List Char) : hasTagMatch (stripTags l) = false :=
  hasTagMatch_stripTags_aux l.length l (Nat.le_refl _)

/-- A contiguous segment (substring) relation on character lists. -/
def segOf (l₁ l₂ : List Char) : Prop := ∃ s t, s ++ l₁ ++ t = l₂

theorem hasTagMatch_true_iff {l : List Char} :
    hasTagMatch l = true ↔
      ∃ a mid b, l = a ++ '<' :: (mid ++ '>' :: b) ∧ mid ≠ [] ∧ '>' ∉ mid := by
  constructor
  · induction l with
    | nil => intro h; cases h
    | cons c rest ih =>
      intro h
      rw [hasTagMatch_cons] at h
      rcases Bool.or_eq_true_iff.mp h with h1 | h1
      · by_cases hc : c = '<'
        · subst hc
          rw [if_pos rfl] at h1
          cases hsp : splitAtGt rest with
          | none => rw [hsp] at h1; cases h1
          | some pp =>
            obtain ⟨pre, post⟩ := pp
            rw [hsp] at h1
            have hpre : pre ≠ [] := by
              intro e; rw [e] at h1; cases h1
            obtain ⟨h2, h3⟩ := splitAtGt_some hsp
            exact ⟨[], pre, post, by rw [List.nil_append, h2], hpre, h3⟩
        · rw [if_neg hc] at h1; cases h1
      · obtain ⟨a, mid, b, h2, h3, h4⟩ := ih h1
        exact ⟨c :: a, mid, b, by rw [List.cons_append, h2], h3, h4⟩
  · rintro ⟨a, mid, b, rfl, hm, hg⟩
    induction a with
    | nil =>
      rw [List.nil_append, hasTagMatch_cons, if_pos rfl, splitAtGt_of hg]
      have : mid.isEmpty = false := by
        cases mid with
        | nil => exact absurd rfl hm
        | cons x xs => rfl
      simp [this]
    | cons c a' ih =>
      rw [List.cons_append, hasTagMatch_cons, ih]
      simp

theorem hasTagMatch_of_seg {l₁ l₂ : List Char} (h : segOf l₁ l₂)
    (hm : hasTagMatch l₁ = true) : hasTagMatch l₂ = true := by
  obtain ⟨s, t, rfl⟩ := h
  obtain ⟨a, mid, b, rfl, hmid, hgt⟩ := hasTagMatch_true_iff.mp hm
  refine hasTagMatch_true_iff.mpr ⟨s ++ a, mid, b ++ t, ?_, hmid, hgt⟩
  simp [List.append_assoc]

theorem hasTagMatch_seg_false {l₁ l₂ : List Char} (h : segOf l₁ l₂)
    (h2 : hasTagMatch l₂ = false) : hasTagMatch l₁ = false := by
  cases hl : hasTagMatch l₁ with
  | false => rfl
  | true => rw [hasTagMatch_of_seg h hl] at h2; cases h2

theorem pyStrip_seg (l : List Char) : segOf (pyStrip l) l := by
  refine ⟨l.takeWhile pyIsSpace,
    ((l.dropWhile pyIsSpace).reverse.takeWhile pyIsSpace).reverse, ?_⟩
  simp only [pyStrip]
  rw [List.append_assoc, ← List.reverse_append, List.takeWhile_append_dropWhile,
    List.reverse_reverse, List.takeWhile_append_dropWhile]

theorem head?_dropWhile {p : Char → Bool} {l : List Char} {x : Char}
    (h : (l.dropWhile p).head? = some x) : p x = false := by
  have h2 := List.head?_dropWhile_not p l
  rw [h] at h2
  exact h2

theorem getLast?_of_sfx {l₁ l₂ : List Char} (h : List.IsSuffix l₂ l₁)
    (hne : l₂ ≠ []) : l₂.getLast? = l₁.getLast? := by
  obtain ⟨t, rfl⟩ := h
  rw [List.getLast?_append]
  cases hl : l₂.getLast? with
  | none => exact absurd (List.getLast?_eq_none_iff.mp hl) hne
  | some x => rfl

theorem pyStrip_head_not {l : List Char} {x : Char}
    (h : (pyStrip l).head? = some x) : pyIsSpace x = false := by
  simp only [pyStrip, List.head?_reverse] at h
  have hne : (l.dropWhile pyIsSpace).reverse.dropWhile pyIsSpace ≠ [] := by
    intro e
    rw [e] at h
    cases h
  rw [getLast?_of_sfx (List.dropWhile_suffix pyIsSpace) hne,
    List.getLast?_reverse] at h
  exact head?_dropWhile h

theorem dropWhile_eq_self_of_head {p : Char → Bool} {l : List Char}
    (h : ∀ x, l.head? = some x → p x = false) : l.dropWhile p = l := by
  cases l with
  | nil => rfl
  | cons c rest =>
    rw [List.dropWhile_cons]
    simp [h c rfl]

theorem dropWhile_dropWhile_self {p : Char → Bool} (l : List Char) :
    (l.dropWhile p).dropWhile p = l.dropWhile p :=
  dropWhile_eq_self_of_head (fun _ hx => head?_dropWhile hx)

theorem pyStrip_idem (l : List Char) : pyStrip (pyStrip l) = pyStrip l := by
  have h1 : (pyStrip l).dropWhile pyIsSpace = pyStrip l :=
    dropWhile_eq_self_of_head (fun _ hx => pyStrip_head_not hx)
  show (((pyStrip l).dropWhile pyIsSpace).reverse.dropWhile pyIsSpace).reverse
      = pyStrip l
  rw [h1]
  simp only [pyStrip, List.reverse_reverse]
  rw [dropWhile_dropWhile_self]

theorem pyStrip_eq_nil_iff {l : List Char} :
    pyStrip l = [] ↔ ∀ c ∈ l, pyIsSpace c = true := by
  simp only [pyStrip, List.reverse_eq_nil_iff, List.dropWhile_eq_nil_iff,
    List.mem_reverse]
  constructor
  · intro h c hc
    have hsplit := List.takeWhile_append_dropWhile pyIsSpace (l := l)
    rw [← hsplit] at hc
    rcases List.mem_append.mp hc with h2 | h2
    · exact List.mem_takeWhile_imp h2
    · exact h c h2
  · intro h c hc
    exact h c ((List.dropWhile_suffix pyIsSpace).sublist.mem hc)

theorem pyContains_true_iff {pat l : List Char} :
    pyContains pat l = true ↔ ∃ a b, l = a ++ pat ++ b := by
  induction l with
  | nil =>
    simp only [pyContains]
    constructor
    · intro h
      exact ⟨[], [], by simp [List.isEmpty_iff.mp h]⟩
    · rintro ⟨a, b, h⟩
      obtain ⟨h1, h2⟩ := List.append_eq_nil.mp h.symm
      obtain ⟨h3, h4⟩ := List.append_eq_nil.mp h1
      simp [List.isEmpty_iff, h4]
  | cons c rest ih =>
    simp only [pyContains, Bool.or_eq_true_iff, List.isPrefixOf_iff_prefix, ih]
    constructor
    · rintro (h | ⟨a, b, rfl⟩)
      · obtain ⟨t, ht⟩ := h
        exact ⟨[], t, by rw [List.nil_append, ← ht]⟩
      · exact ⟨c :: a, b, by simp⟩
    · rintro ⟨a, b, h⟩
      cases a with
      | nil =>
        left
        rw [List.nil_append] at h
        exact ⟨b, h.symm⟩
      | cons a0 a' =>
        right
        rw [List.cons_append, List.cons_append] at h
        injection h with h1 h2
        exact ⟨a', b, h2⟩

theorem retainedClean_eq_none_of_skip {line : List Char} (h : skipLine line = true) :
    retainedClean line = none := by
  simp [retainedClean, h]

theorem retainedClean_eq_none_of_empty {line : List Char} (h1 : skipLine line = false)
    (h2 : pyStrip (stripTags line) = []) : retainedClean line = none := by
  simp [retainedClean, h1, h2]

theorem retainedClean_eq_some {line : List Char} (h1 : skipLine line = false)
    (h2 : pyStrip (stripTags line) ≠ []) :
    retainedClean line = some (pyStrip (stripTags line)) := by
  simp [retainedClean, h1, h2]

theorem cleanLoop_eq :
    ∀ (lines acc : List (List Char)),
      cleanLoop acc lines =
        acc ++ collapseFrom acc.getLast? (lines.filterMap retainedClean) := by
  intro lines
  induction lines with
  | nil => intro acc; simp [cleanLoop, collapseFrom]
  | cons line rest ih =>
    intro acc
    by_cases hs : skipLine line
    · rw [List.filterMap_cons_none (retainedClean_eq_none_of_skip hs)]
      simp only [cleanLoop, if_pos hs]
      exact ih acc
    · simp only [cleanLoop, if_neg hs]
      by_cases hemp : pyStrip (stripTags line) = []
      · rw [List.filterMap_cons_none (retainedClean_eq_none_of_empty
          (Bool.not_eq_true _ ▸ hs) hemp)]
        rw [if_neg (by simp [hemp])]
        exact ih acc
      · rw [List.filterMap_cons_some (retainedClean_eq_some
          (Bool.not_eq_true _ ▸ hs) hemp)]
        by_cases hlast : acc.getLast? = some (pyStrip (stripTags line))
        · rw [if_neg (by simp [hlast])]
          rw [ih acc]
          simp only [collapseFrom]
          rw [if_pos hlast.symm]
        · rw [if_pos ⟨hemp, hlast⟩]
          rw [ih (acc ++ [pyStrip (stripTags line)])]
          rw [List.getLast?_concat]
          simp only [collapseFrom]
          rw [if_neg (fun e => hlast e.symm)]
          rw [List.append_assoc, List.singleton_append]

theorem cleanLines_eq (content : List Char) :
    cleanLines content = collapseConsec (candidateLines content) := by
  rw [cleanLines, cleanLoop_eq, collapseConsec, candidateLines]
  rfl

theorem collapseFrom_sublist :
    ∀ (l : List (List Char)) (last : Option (List Char)),
      List.Sublist (collapseFrom last l) l := by
  intro l
  induction l with
  | nil => intro last; exact List.Sublist.refl _
  | cons c rest ih =>
    intro last
    simp only [collapseFrom]
    by_cases h : some c = last
    · rw [if_pos h]
      exact (ih last).cons c
    · rw [if_neg h]
      exact (ih (some c)).cons₂ c

theorem collapseFrom_head {x : List Char} :
    ∀ (l : List (List Char)), (collapseFrom (some x) l).head? ≠ some x := by
  intro l
  induction l with
  | nil => simp [collapseFrom]
  | cons c rest ih =>
    simp only [collapseFrom]
    by_cases h : some c = some x
    · rw [if_pos h]
      exact ih
    · rw [if_neg h]
      simp only [List.head?_cons]
      exact h

theorem collapseFrom_chain :
    ∀ (l : List (List Char)) (last : Option (List Char)),
      List.Chain' (· ≠ ·) (collapseFrom last l) := by
  intro l
  induction l with
  | nil => intro last; simp [collapseFrom]
  | cons c rest ih =>
    intro last
    simp only [collapseFrom]
    by_cases h : some c = last
    · rw [if_pos h]
      exact ih last
    · rw [if_neg h]
      rw [List.chain'_cons']
      refine ⟨?_, ih (some c)⟩
      intro y hy e
      rw [Option.mem_def] at hy
      exact collapseFrom_head rest (by rw [hy, e])

theorem collapseFrom_mem :
    ∀ (l : List (List Char)) (last : Option (List Char)) (v : List Char),
      v ∈ l → v ∈ collapseFrom last l ∨ some v = last := by
  intro l
  induction l with
  | nil => intro last v hv; cases hv
  | cons c rest ih =>
    intro last v hv
    simp only [collapseFrom]
    by_cases h : some c = last
    · rcases List.mem_cons.mp hv with rfl | hv2
      · right; exact h
      · rw [if_pos h]
        exact ih last v hv2
    · rw [if_neg h]
      rcases List.mem_cons.mp hv with rfl | hv2
      · left; exact List.mem_cons_self ..
      · rcases ih (some c) v hv2 with h2 | h2
        · left; exact List.mem_cons_of_mem _ h2
        · left
          have : v = c := Option.some.inj h2
          subst this
          exact List.mem_cons_self ..

theorem collapseFrom_eq_self :
    ∀ (l : List (List Char)) (last : Option (List Char)),
      List.Chain' (· ≠ ·) l → (∀ x, last = some x → l.head? ≠ some x) →
      collapseFrom last l = l := by
  intro l
  induction l with
  | nil => intro last _ _; rfl
  | cons c rest ih =>
    intro last hch hh
    have hne : ¬ some c = last := by
      intro e
      exact hh c e.symm rfl
    simp only [collapseFrom]
    rw [if_neg hne]
    congr 1
    apply ih (some c) (List.chain'_cons'.mp hch).2
    intro x hx hcon
    have hcx : c = x := Option.some.inj hx
    subst hcx
    exact (List.chain'_cons'.mp hch).1 c (Option.mem_def.mpr hcon) rfl

theorem joinNL_eq_nil_iff (ls : List (List Char)) (h : ∀ l ∈ ls, l ≠ []) :
    (joinNL ls = [] ↔ ls = []) := by
  cases ls with
  | nil => simp [joinNL]
  | cons l rest =>
    cases rest with
    | nil =>
      simp only [joinNL]
      constructor
      · intro e
        exact absurd e (h l (List.mem_cons_self ..))
      · intro e
        cases e
    | cons l' rest' =>
      simp only [joinNL]
      constructor
      · intro e
        obtain ⟨-, h2⟩ := List.append_eq_nil.mp e
        cases h2
      · intro e
        cases e

theorem retainedClean_some_inv {line v : List Char} (h : retainedClean line = some v) :
    v = pyStrip (stripTags line) ∧ v ≠ [] ∧ skipLine line = false := by
  by_cases hs : skipLine line
  · rw [retainedClean_eq_none_of_skip hs] at h
    cases h
  · by_cases hemp : pyStrip (stripTags line) = []
    · rw [retainedClean_eq_none_of_empty (Bool.not_eq_true _ ▸ hs) hemp] at h
      cases h
    · rw [retainedClean_eq_some (Bool.not_eq_true _ ▸ hs) hemp] at h
      have hv := Option.some.inj h
      exact ⟨hv.symm, hv ▸ hemp, Bool.not_eq_true _ ▸ hs⟩

theorem candidateLines_strip {content v : List Char} (h : v ∈ candidateLines content) :
    pyStrip v = v ∧ v ≠ [] ∧ hasTagMatch v = false := by
  obtain ⟨line, -, hrc⟩ := List.mem_filterMap.mp h
  obtain ⟨hv, hne, -⟩ := retainedClean_some_inv hrc
  subst hv
  refine ⟨pyStrip_idem _, hne, ?_⟩
  exact hasTagMatch_seg_false (pyStrip_seg _) (hasTagMatch_stripTags line)

theorem cleanLines_subset_candidates {content : List Char} {v : List Char}
    (h : v ∈ cleanLines content) : v ∈ candidateLines content := by
  rw [cleanLines_eq] at h
  exact (collapseFrom_sublist (candidateLines content) none).mem h

theorem cleanLoop_filter :
    ∀ (lines acc : List (List Char)),
      cleanLoop acc lines = cleanLoop acc (lines.filter (fun l => !skipLine l)) := by
  intro lines
  induction lines with
  | nil => intro acc; rfl
  | cons line rest ih =>
    intro acc
    rw [List.filter_cons]
    by_cases hs : skipLine line
    · have hb : (!skipLine line) = false := by rw [hs]; rfl
      rw [hb]
      simp only [cleanLoop, if_pos hs]
      exact ih acc
    · have hs2 : skipLine line = false := Bool.not_eq_true _ ▸ hs
      have hb : (!skipLine line) = true := by rw [hs2]; rfl
      rw [hb]
      simp only [cleanLoop, if_neg hs]
      by_cases hcond : pyStrip (stripTags line) ≠ [] ∧
          acc.getLast? ≠ some (pyStrip (stripTags line))
      · rw [if_pos hcond, if_pos hcond]
        exact ih _
      · rw [if_neg hcond, if_neg hcond]
        exact ih acc

theorem skipLine_true_iff (line : List Char) :
    skipLine line = true ↔
      ((∃ t, webvttToken ++ t = pyStrip line) ∨
        (∃ a b, line = a ++ arrowToken ++ b) ∨
        (∀ c ∈ line, pyIsSpace c = true)) := by
  simp only [skipLine, Bool.or_eq_true_iff, List.isPrefixOf_iff_prefix,
    pyContains_true_iff, List.isEmpty_iff, pyStrip_eq_nil_iff, or_assoc]
  exact Iff.rfl

theorem skipLine_eq_false {l : List Char} (h1 : l ≠ []) (h3 : pyStrip l = l)
    (h4 : webvttToken.isPrefixOf l = false)
    (h5 : pyContains arrowToken l = false) : skipLine l = false := by
  have h6 : l.isEmpty = false := by
    cases l with
    | nil => exact absurd rfl h1
    | cons c rest => rfl
  rw [skipLine, h3, h4, h5, h6]
  rfl

theorem filterMap_retained_self :
    ∀ (ls : List (List Char)), (∀ l ∈ ls, retainedClean l = some l) →
      ls.filterMap retainedClean = ls := by
  intro ls
  induction ls with
  | nil => intro _; rfl
  | cons l rest ih =>
    intro h
    rw [List.filterMap_cons_some (h l (List.mem_cons_self ..))]
    rw [ih (fun x hx => h x (List.mem_cons_of_mem _ hx))]

theorem pySplitA_append_nobreak :
    ∀ (l rest acc : List Char), (∀ c ∈ l, pyLineBreak c = false) →
      pySplitA (l ++ rest) acc false = pySplitA rest (l.reverse ++ acc) false := by
  intro l
  induction l with
  | nil => intro rest acc _; simp
  | cons c t ih =>
    intro rest acc h
    have hc : pyLineBreak c = false := h c (List.mem_cons_self ..)
    have hcn : c ≠ '\n' := by
      intro e
      subst e
      simp [pyLineBreak] at hc
    have hcr : c ≠ '\r' := by
      intro e
      subst e
      simp [pyLineBreak] at hc
    rw [List.cons_append]
    show (if c = '\n' then _ else if c = '\r' then _
      else if pyLineBreak c then _ else pySplitA (t ++ rest) (c :: acc) false) = _
    rw [if_neg hcn, if_neg hcr, hc]
    simp only [Bool.false_eq_true, if_false]
    rw [ih rest (c :: acc) (fun x hx => h x (List.mem_cons_of_mem _ hx))]
    rw [List.reverse_cons, List.append_assoc, List.singleton_append]

theorem pySplitA_nil (acc : List Char) (b : Bool) :
    pySplitA [] acc b = if acc.isEmpty then [] else [acc.reverse] := rfl

theorem pySplitA_newline (rest acc : List Char) :
    pySplitA ('\n' :: rest) acc false = acc.reverse :: pySplitA rest [] false := by
  show (if '\n' = '\n' then _ else _) = _
  rw [if_pos rfl]
  simp only [Bool.false_eq_true, if_false]

theorem pySplitlines_joinNL :
    ∀ (ls : List (List Char)), (∀ l ∈ ls, l ≠ []) →
      (∀ l ∈ ls, ∀ c ∈ l, pyLineBreak c = false) →
      pySplitlines (joinNL ls) = ls := by
  intro ls
  induction ls with
  | nil => intro _ _; rfl
  | cons l rest ih =>
    intro h1 h2
    cases rest with
    | nil =>
      show pySplitA (joinNL [l]) [] false = [l]
      have hl : joinNL [l] = l ++ [] := by
        rw [List.append_nil]
        rfl
      rw [hl, pySplitA_append_nobreak l [] [] (h2 l (List.mem_cons_self ..)),
        List.append_nil, pySplitA_nil]
      have hne : l.reverse.isEmpty = false := by
        cases hl2 : l.reverse with
        | nil =>
          exact absurd (List.reverse_eq_nil_iff.mp hl2)
            (h1 l (List.mem_cons_self ..))
        | cons x xs => rfl
      rw [hne]
      simp only [Bool.false_eq_true, if_false, List.reverse_reverse]
    | cons l' rest' =>
      show pySplitA (joinNL (l :: l' :: rest')) [] false = _
      have hj : joinNL (l :: l' :: rest') = l ++ '\n' :: joinNL (l' :: rest') := rfl
      rw [hj, pySplitA_append_nobreak l _ [] (h2 l (List.mem_cons_self ..)),
        pySplitA_newline, List.append_nil, List.reverse_reverse]
      have ihr := ih (fun x hx => h1 x (List.mem_cons_of_mem _ hx))
        (fun x hx => h2 x (List.mem_cons_of_mem _ hx))
      rw [show pySplitA (joinNL (l' :: rest')) [] false
          = pySplitlines (joinNL (l' :: rest')) from rfl, ihr]

theorem stripTags_eq_self_aux :
    ∀ n (l : List Char), l.length ≤ n → hasTagMatch l = false →
      stripTags l = l := by
  intro n
  induction n with
  | zero =>
    intro l h _
    have : l = [] := List.eq_nil_of_length_eq_zero (Nat.le_zero.mp h)
    subst this
    rfl
  | succ n ih =>
    intro l hn hm
    cases l with
    | nil => rfl
    | cons c rest =>
      have hrn : rest.length ≤ n := by
        simp only [List.length_cons] at hn; omega
      rw [hasTagMatch_cons] at hm
      have hm2 : hasTagMatch rest = false := by
        cases h2 : hasTagMatch rest with
        | false => rfl
        | true => rw [h2, Bool.or_true] at hm; cases hm
      by_cases hc : c = '<'
      · subst hc
        rw [if_pos rfl] at hm
        cases hsp : splitAtGt rest with
        | none => rw [stripTags_cons_lt_none hsp, ih rest hrn hm2]
        | some pp =>
          obtain ⟨pre, post⟩ := pp
          rw [hsp] at hm
          have hm' : (!pre.isEmpty || hasTagMatch rest) = false := hm
          have hpre : pre = [] := by
            by_contra hne
            have hie : pre.isEmpty = false := by
              cases pre with
              | nil => exact absurd rfl hne
              | cons x xs => rfl
            rw [hie] at hm'
            cases hm'
          subst hpre
          rw [stripTags_cons_lt_empty hsp, ih rest hrn hm2]
      · rw [stripTags_cons_not rest hc, ih rest hrn hm2]

/-- Claim C1: for every input string, the normalizer's retained-line sequence
is a sublist of the cleaned candidate lines (so the relative order of first
occurrence of every retained line is the input order), every candidate value
occurs in the output, no output line equals its immediate predecessor, and no
output line is empty or whitespace-only. -/
theorem clean_vtt_c1_invariants (s : List Char) :
    List.Sublist (cleanLines s) (candidateLines s) ∧
    (∀ v ∈ candidateLines s, v ∈ cleanLines s) ∧
    List.Chain' (· ≠ ·) (cleanLines s) ∧
    (∀ l ∈ cleanLines s, pyStrip l ≠ []) := by
  refine ⟨?_, ?_, ?_, ?_⟩
  · rw [cleanLines_eq]
    exact collapseFrom_sublist _ none
  · intro v hv
    rw [cleanLines_eq]
    rcases collapseFrom_mem (candidateLines s) none v hv with h | h
    · exact h
    · cases h
  · rw [cleanLines_eq]
    exact collapseFrom_chain _ none
  · intro l hl
    obtain ⟨h1, h2, -⟩ := candidateLines_strip (cleanLines_subset_candidates hl)
    rw [h1]
    exact h2

/-- Witness for C1 at a concrete input. -/
theorem clean_vtt_c1_witness : toL "A" ∈ cleanLines (toL "A\nB") :=
  (clean_vtt_c1_invariants (toL "A\nB")).2.1 (toL "A") (by decide)

/-- Claim C2: the normalizer is a total function of its input text; its
output is always the newline join of a list of non-empty lines, and the
output is the empty string exactly when no line is retained (the worst case
is the empty sequence). -/
theorem clean_vtt_c2_total (s : List Char) :
    (∃ ls, clean_vtt s = joinNL ls ∧ ∀ l ∈ ls, l ≠ []) ∧
    (clean_vtt s = [] ↔ cleanLines s = []) := by
  have hne : ∀ l ∈ cleanLines s, l ≠ [] := by
    intro l hl
    exact (candidateLines_strip (cleanLines_subset_candidates hl)).2.1
  exact ⟨⟨cleanLines s, rfl, hne⟩, joinNL_eq_nil_iff _ hne⟩

/-- Witness for C2 at a concrete input. -/
theorem clean_vtt_c2_witness : clean_vtt (toL "WEBVTT\n00:00 --> 00:01") = [] :=
  (clean_vtt_c2_total (toL "WEBVTT\n00:00 --> 00:01")).2.mpr (by decide)

/-- Counterexample to claim C3 as stated: on the input line `"<>-<a>->"` the
normalizer outputs `"<>-->"`, which contains the timing arrow `-->`
(assembled by deleting the tag `<a>`) and contains a substring delimited by
`<` and the next `>` (the surviving empty tag `<>`). -/
theorem clean_vtt_c3_counterexample :
    clean_vtt (toL "<>-<a>->") = toL "<>-->" ∧
    pyContains arrowToken (clean_vtt (toL "<>-<a>->")) = true ∧
    hasAngle (clean_vtt (toL "<>-<a>->")) = true := by decide

/-- Claim C3 (amended): every line of the normalizer's output contains no
substring matching `<`, one or more non-`>` characters, `>` (all non-empty
markup tags are stripped); the empty tag `<>` and an arrow assembled by tag
deletion may survive.  The input line `"<c>Hello</c> <i>world</i>"`
normalizes to `"Hello world"`. -/
theorem clean_vtt_c3_amended :
    (∀ (s : List Char), ∀ l ∈ cleanLines s, hasTagMatch l = false) ∧
    clean_vtt (toL "<c>Hello</c> <i>world</i>") = toL "Hello world" := by
  constructor
  · intro s l hl
    exact (candidateLines_strip (cleanLines_subset_candidates hl)).2.2
  · decide

/-- Witness for the amended C3 at a concrete input. -/
theorem clean_vtt_c3_witness : hasTagMatch (toL "Hello world") = false :=
  clean_vtt_c3_amended.1 (toL "<c>Hello</c> <i>world</i>") (toL "Hello world")
    (by decide)

/-- Claim C4: a line is skipped exactly when its trimmed form starts with
`WEBVTT`, or the raw line contains `-->` anywhere, or the line is empty or
whitespace-only; skipped lines contribute nothing to the loop, and a track
of only a header line and cue-timing lines normalizes to the empty string. -/
theorem clean_vtt_c4_skip :
    (∀ line : List Char, skipLine line = true ↔
      ((∃ t, webvttToken ++ t = pyStrip line) ∨
        (∃ a b, line = a ++ arrowToken ++ b) ∨
        (∀ c ∈ line, pyIsSpace c = true))) ∧
    (∀ (lines acc : List (List Char)),
      cleanLoop acc lines = cleanLoop acc (lines.filter (fun l => !skipLine l))) ∧
    clean_vtt
      (toL "WEBVTT\n00:00:00.000 --> 00:00:02.000\n00:00:02.000 --> 00:00:04.000")
      = [] :=
  ⟨skipLine_true_iff, cleanLoop_filter, by decide⟩

/-- Witness for C4 at a concrete input. -/
theorem clean_vtt_c4_witness : skipLine (toL "  WEBVTT header") = true :=
  (clean_vtt_c4_skip.1 (toL "  WEBVTT header")).mpr
    (Or.inl ⟨toL " header", by decide⟩)

/-- Claim C5: the normalizer's retained lines are exactly the consecutive-
duplicate collapse of the cleaned candidate lines, so only immediately
consecutive duplicates collapse; the lines `A`, `A`, `B`, `A` normalize to
`A`, `B`, `A`. -/
theorem clean_vtt_c5_consecutive_dedup :
    (∀ s : List Char, cleanLines s = collapseConsec (candidateLines s)) ∧
    clean_vtt (toL "A\nA\nB\nA") = toL "A\nB\nA" :=
  ⟨cleanLines_eq, by decide⟩

/-- Witness for C5 at a concrete input. -/
theorem clean_vtt_c5_witness :
    cleanLines (toL "A\nA\nB\nA")
      = collapseConsec (candidateLines (toL "A\nA\nB\nA")) :=
  clean_vtt_c5_consecutive_dedup.1 (toL "A\nA\nB\nA")

/-- Counterexample to claim C6 as stated: the line `"<c></c>x</c>"` does not
clean to the empty string (the regex leaves the character `x`), so the input
lines `A`, `<c></c>x</c>`, `A` normalize to `"A\nx\nA"`, not to the single
line `"A"`. -/
theorem clean_vtt_c6_counterexample :
    clean_vtt (toL "A\n<c></c>x</c>\nA") = toL "A\nx\nA" ∧
    clean_vtt (toL "A\n<c></c>x</c>\nA") ≠ toL "A" := by decide

/-- Claim C6 (amended): a non-skipped line whose tag-stripped trimmed text is
empty contributes nothing to the output and leaves the dedup state unchanged;
with the genuinely pure-markup line `"<c></c>"`, the lines `A`, `<c></c>`,
`A` normalize to the single line `"A"`. -/
theorem clean_vtt_c6_empty_lines :
    (∀ (acc : List (List Char)) (line : List Char) (rest : List (List Char)),
      skipLine line = false → pyStrip (stripTags line) = [] →
      cleanLoop acc (line :: rest) = cleanLoop acc rest) ∧
    clean_vtt (toL "A\n<c></c>\nA") = toL "A" := by
  constructor
  · intro acc line rest h1 h2
    have h1' : ¬ skipLine line = true := by
      rw [h1]
      exact Bool.false_ne_true
    simp only [cleanLoop, if_neg h1']
    rw [if_neg (fun hc => hc.1 h2)]
  · decide

/-- Witness for the amended C6 at a concrete input. -/
theorem clean_vtt_c6_witness :
    cleanLoop [] [toL "<c></c>", toL "A"] = cleanLoop [] [toL "A"] :=
  clean_vtt_c6_empty_lines.1 [] (toL "<c></c>") [toL "A"] (by decide) (by decide)

/-- Claim C7: the end-to-end scenario of the spec evaluates to
`"hello there\ngoodbye"`. -/
theorem clean_vtt_c7_end_to_end :
    clean_vtt (toL "WEBVTT\n\n00:00:00.000 --> 00:00:02.000\n<c>hello</c> there\n\n00:00:02.000 --> 00:00:04.000\nhello there\n\n00:00:04.000 --> 00:00:06.000\ngoodbye")
      = toL "hello there\ngoodbye" := by decide

/-- Claim C8: normalizing an already-normalized transcript (newline-joined
non-empty lines free of line breaks, leading/trailing whitespace, the header
token, the arrow token and markup tags, with no two consecutive equal lines)
returns it unchanged. -/
theorem clean_vtt_c8_idempotent (ls : List (List Char))
    (h1 : ∀ l ∈ ls, l ≠ [])
    (h2 : ∀ l ∈ ls, ∀ c ∈ l, pyLineBreak c = false)
    (h3 : ∀ l ∈ ls, pyStrip l = l)
    (h4 : ∀ l ∈ ls, webvttToken.isPrefixOf l = false)
    (h5 : ∀ l ∈ ls, pyContains arrowToken l = false)
    (h6 : ∀ l ∈ ls, stripTags l = l)
    (h7 : List.Chain' (· ≠ ·) ls) :
    clean_vtt (joinNL ls) = joinNL ls := by
  have hsplit : pySplitlines (joinNL ls) = ls := pySplitlines_joinNL ls h1 h2
  have hrc : ∀ l ∈ ls, retainedClean l = some l := by
    intro l hl
    have hskip : skipLine l = false :=
      skipLine_eq_false (h1 l hl) (h3 l hl) (h4 l hl) (h5 l hl)
    have hclean : pyStrip (stripTags l) = l := by
      rw [h6 l hl, h3 l hl]
    rw [retainedClean_eq_some hskip (by rw [hclean]; exact h1 l hl), hclean]
  rw [clean_vtt, cleanLines, hsplit, cleanLoop_eq, filterMap_retained_self ls hrc]
  rw [show (([] : List (List Char)).getLast?) = none from rfl]
  rw [collapseFrom_eq_self ls none h7 (fun x hx => by cases hx)]
  rw [List.nil_append]

/-- Witness for C8 at a concrete input. -/
theorem clean_vtt_c8_witness :
    clean_vtt (joinNL [toL "hello", toL "world"])
      = joinNL [toL "hello", toL "world"] :=
  clean_vtt_c8_idempotent [toL "hello", toL "world"] (by decide) (by decide)
    (by decide) (by decide) (by decide) (by decide)
    (List.chain'_cons.mpr ⟨by decide, List.chain'_singleton _⟩)

/-- Claim C9: the sanitized video title contains none of the characters
stripped by the title regex, is a sublist of the raw title, keeps every
non-illegal character, and is the base of the three artifact file names. -/
theorem sanitize_c9 (t : List Char) :
    (∀ c ∈ sanitizeTitle t, illegalChar c = false) ∧
    List.Sublist (sanitizeTitle t) t ∧
    (∀ c ∈ t, illegalChar c = false → c ∈ sanitizeTitle t) ∧
    transcriptFileName t = sanitizeTitle t ++ toL "_transcript.txt" ∧
    summaryFileName t = sanitizeTitle t ++ toL "_summary.txt" ∧
    mcqsFileName t = sanitizeTitle t ++ toL "_mcqs.txt" := by
  refine ⟨?_, List.filter_sublist t, ?_, rfl, rfl, rfl⟩
  · intro c hc
    have h2 := (List.mem_filter.mp hc).2
    cases h3 : illegalChar c with
    | false => rfl
    | true => rw [h3] at h2; cases h2
  · intro c hc hil
    refine List.mem_filter.mpr ⟨hc, ?_⟩
    rw [hil]
    rfl

/-- Witness for C9 at a concrete input. -/
theorem sanitize_c9_witness : 'a' ∈ sanitizeTitle (toL "a:b") :=
  (sanitize_c9 (toL "a:b")).2.2.1 'a' (by decide) (by decide)

/-- Claim C10: the tag stripper removes exactly the matches of `<[^>]+>`: a
line with no match is unchanged, an empty tag `<>` survives, a `<` with no
later `>` survives, and the concrete inputs `"a<>b"` and `"x<y"` pass through
the normalizer unchanged. -/
theorem stripTags_c10 :
    (∀ l : List Char, hasTagMatch l = false → stripTags l = l) ∧
    (∀ rest : List Char,
      stripTags ('<' :: '>' :: rest) = '<' :: '>' :: stripTags rest) ∧
    (∀ rest : List Char, '>' ∉ rest →
      stripTags ('<' :: rest) = '<' :: stripTags rest) ∧
    clean_vtt (toL "a<>b") = toL "a<>b" ∧
    clean_vtt (toL "x<y") = toL "x<y" := by
  refine ⟨?_, ?_, ?_, by decide, by decide⟩
  · intro l h
    exact stripTags_eq_self_aux l.length l (Nat.le_refl _) h
  · intro rest
    have hsp : splitAtGt ('>' :: rest) = some ([], rest) := by
      simp [splitAtGt]
    rw [stripTags_cons_lt_empty hsp]
    have hgt : ('>' : Char) ≠ '<' := by decide
    rw [stripTags_cons_not rest hgt]
  · intro rest h
    exact stripTags_cons_lt_none (splitAtGt_none.mpr h)

/-- Witness for C10 at a concrete input. -/
theorem stripTags_c10_witness : stripTags (toL "abc") = toL "abc" :=
  stripTags_c10.1 (toL "abc") (by decide)
